import Mathlib

/-!
Verification of the query templating pipeline of the BigQuery Grafana
datasource (`src/datasource.ts`).

The development shallowly embeds the code of `BigQueryDatasource`:
`interpolateVariable`, `query`, `annotationQuery`, `doQueryRequest`.
The collaborating `BigQueryQuery` class (`quoteLiteral`, `render`,
`expend_macros`) and the host templating walk are not part of the staged
sources; those definitions are modelled from the specification and are
marked as such in their doc comments.

JS numbers are embedded as `Int` (all values the pipeline handles as
numbers are integral millisecond timestamps or dashboard scalars), JS
strings as `String`, and JS `null`/`undefined` as one `null` value.
-/

namespace BigQueryDS

/-- A scalar element of a dashboard variable value: JS string or number
(a `null` element is kept for totality of quoting). -/
inductive Scalar where
  | str (s : String)
  | num (n : Int)
  | nullS
deriving DecidableEq, Repr

/-- A dashboard variable's current value as `interpolateVariable` receives
it: a scalar string, a scalar number, a list of scalars, or JS
`null`/`undefined` (one constructor for both). -/
inductive Value where
  | str (s : String)
  | num (n : Int)
  | list (vs : List Scalar)
  | null
deriving DecidableEq, Repr

/-- The flags of a dashboard variable that `interpolateVariable` reads
(`variable.multi`, `variable.includeAll`). -/
structure Variable where
  multi : Bool
  includeAll : Bool
deriving DecidableEq, Repr

/-- Decimal digit character for `d < 10`. -/
def digitChar (d : Nat) : Char := Char.ofNat (48 + d)

/-- Decimal rendering of a natural number (fuelled structural recursion;
`fuel = n + 1` always suffices since `n / 10 < n` for `n ≥ 10`). -/
def natCharsAux : Nat → Nat → List Char
  | 0, _ => []
  | fuel + 1, n =>
    if n < 10 then [digitChar n]
    else natCharsAux fuel (n / 10) ++ [digitChar (n % 10)]

/-- Decimal rendering of a natural number, as the character list of the
JS string coercion of a nonnegative number. -/
def natChars (n : Nat) : List Char := natCharsAux (n + 1) n

/-- JS string coercion of an integral number. -/
def intStr (n : Int) : String :=
  match n with
  | .ofNat m => ⟨natChars m⟩
  | .negSucc m => ⟨'-' :: natChars (m + 1)⟩

/-- JS string coercion of a natural number. -/
def natStr (n : Nat) : String := ⟨natChars n⟩

/-- Doubling of embedded single quotes in a string literal body. -/
def escapeQuotes (s : String) : String :=
  ⟨s.data.foldr (fun c acc => if c = '\'' then '\'' :: '\'' :: acc else c :: acc) []⟩

/-- Modelled from the spec: `BigQueryQuery.quoteLiteral` lives in
`bigquery_query.ts`, which is not among the staged sources.  Spec §4.1
Literal Quoting: a string is wrapped in single quotes with embedded
quotes doubled, a number is emitted as-is unquoted, null emits the SQL
`NULL` literal. -/
def quoteLiteral : Scalar → String
  | .str s => "'" ++ escapeQuotes s ++ "'"
  | .num n => intStr n
  | .nullS => "NULL"

/-- The JS `list.join(',')` used on the quoted values. -/
def joinComma : List String → String
  | [] => ""
  | [x] => x
  | x :: xs => x ++ "," ++ joinComma xs

/-- `BigQueryDatasource.interpolateVariable` (datasource.ts lines 64-81),
branch for branch: a scalar string is quoted only under
`multi || includeAll`, a scalar number is returned as-is, anything else
falls through to the list branch where lodash `_.map` over a non-list
(`null`/`undefined`) yields the empty list, so the join yields `""`. -/
def interpolateVariable (value : Value) (v : Variable) : String :=
  match value with
  | .str s => if v.multi || v.includeAll then quoteLiteral (.str s) else s
  | .num n => intStr n
  | .list vs => joinComma (vs.map quoteLiteral)
  | .null => joinComma (([] : List Scalar).map quoteLiteral)

/-- The elements a value contributes when treated as a member list: a
scalar is a singleton, a list is itself, `null`/`undefined` contributes
nothing (lodash `_.map` over them is empty). -/
def Value.elems : Value → List Scalar
  | .str s => [.str s]
  | .num n => [.num n]
  | .list vs => vs
  | .null => []

/-- `true` iff no character of `s` is a single quote. -/
def noQuoteChars (s : String) : Bool := s.data.all (fun c => c != '\'')

/-! ### Macro Expander

Modelled from the spec: `BigQueryQuery.expend_macros` lives in
`bigquery_query.ts`, which is not among the staged sources.  Spec §4.3
Macro Expander: a fixed macro vocabulary appears as function-call syntax
inside the SQL text and each call is replaced with a literal SQL fragment
computed from `options.range` (rendered in the warehouse's millisecond
timestamp literal format).  The vocabulary is carried here by its
time-filter representative `\x7b$__timeFilter(column)\x7d`: the call is
replaced by `column BETWEEN TIMESTAMP_MILLIS (from) AND TIMESTAMP_MILLIS
(to)`.  The argument is parsed positionally as a column name (identifier
characters); text that does not form a call is left unchanged. -/

/-- The active time range of `options.range`, as epoch milliseconds. -/
structure TimeRange where
  fromMs : Nat
  toMs : Nat
deriving DecidableEq, Repr

/-- A character that may appear in a macro argument or variable name:
JS word characters. -/
def isIdentChar (c : Char) : Bool := c.isAlphanum || c = '_'

/-- The characters a time-filter macro call starts with after its `$`. -/
def filterHead : List Char :=
  ['_', '_', 't', 'i', 'm', 'e', 'F', 'i', 'l', 't', 'e', 'r', '(']

/-- Parse a time-filter macro call at the current position, the leading
`$` already consumed: on success, the column argument and the text after
the closing parenthesis. -/
def tryMacroCall (cs : List Char) : Option (List Char × List Char) :=
  if filterHead.isPrefixOf cs then
    match (cs.drop filterHead.length).dropWhile isIdentChar with
    | c :: rem =>
      if c = ')' then
        if ((cs.drop filterHead.length).takeWhile isIdentChar).isEmpty then none
        else some ((cs.drop filterHead.length).takeWhile isIdentChar, rem)
      else none
    | [] => none
  else none

/-- The literal fragment after the column name in an expanded time
filter. -/
def filterTail (r : TimeRange) : List Char :=
  ("BETWEEN TIMESTAMP_MILLIS (").data ++ natChars r.fromMs
    ++ (") AND TIMESTAMP_MILLIS (").data ++ natChars r.toMs ++ (")").data

/-- The replacement of one time-filter macro call. -/
def repl (r : TimeRange) (col : List Char) : List Char :=
  col ++ ' ' :: filterTail r

/-- One left-to-right expansion pass over the SQL text (fuelled
structural recursion; a fuel equal to the character count suffices since
every step consumes at least one character). -/
def expandAux (r : TimeRange) : Nat → List Char → List Char
  | 0, cs => cs
  | _ + 1, [] => []
  | fuel + 1, c :: rest =>
    if c = '$' then
      match tryMacroCall rest with
      | some cr => repl r cr.1 ++ expandAux r fuel cr.2
      | none => c :: expandAux r fuel rest
    else c :: expandAux r fuel rest

/-- Macro expansion on a character list. -/
def expandL (r : TimeRange) (cs : List Char) : List Char :=
  expandAux r cs.length cs

/-- Modelled from the spec: `expandMacros(rawSql, options)` of spec §4.3
(realised by `BigQueryQuery.expend_macros`, not among the staged
sources). -/
def expandMacros (r : TimeRange) (sql : String) : String := ⟨expandL r sql.data⟩

/-! ### Variable Interpolator

Modelled from the spec: the SQL walk is performed by the host templating
service (`templateSrv.replace`), which `datasource.ts` only consumes;
spec §4.2 Variable Interpolator: every `${name}` token whose variable is
present in the map is replaced by what the per-value rule (the
`interpolateVariable` argument) yields; unresolved tokens are left
untouched. -/

/-- The variables in scope: name, current value, flags. -/
def VarMap := List (String × Value × Variable)

/-- Look a variable up by name. -/
def lookupVar (nm : String) : List (String × Value × Variable) → Option (Value × Variable)
  | [] => none
  | (k, val, v) :: rest => if k = nm then some (val, v) else lookupVar nm rest

/-- Parse a `\x7b${name\x7d}` token at the current position, the leading `$`
already consumed: on success, the name and the text after the closing
brace. -/
def tryToken (cs : List Char) : Option (String × List Char) :=
  match cs with
  | '{' :: rest =>
    match rest.dropWhile isIdentChar with
    | '}' :: rem =>
      if (rest.takeWhile isIdentChar).isEmpty then none
      else some (⟨rest.takeWhile isIdentChar⟩, rem)
    | _ => none
  | _ => none

/-- One interpolation pass over the SQL text (fuelled structural
recursion, fuel as in `expandAux`), parameterised by the per-value rule
exactly as `templateSrv.replace` receives `this.interpolateVariable`. -/
def interpolateAux (interp : Value → Variable → String) (vars : List (String × Value × Variable)) :
    Nat → List Char → List Char
  | 0, cs => cs
  | _ + 1, [] => []
  | fuel + 1, c :: rest =>
    if c = '$' then
      match tryToken rest with
      | some nr =>
        match lookupVar nr.1 vars with
        | some vv => (interp vv.1 vv.2).data ++ interpolateAux interp vars fuel nr.2
        | none => c :: interpolateAux interp vars fuel rest
      | none => c :: interpolateAux interp vars fuel rest
    else c :: interpolateAux interp vars fuel rest

/-- Interpolation of a SQL string against the variables in scope. -/
def interpolate (interp : Value → Variable → String) (vars : List (String × Value × Variable))
    (sql : String) : String :=
  ⟨interpolateAux interp vars sql.data.length sql.data⟩

/-! ### Query Model and the `query` pipeline (datasource.ts lines 83-107) -/

/-- A query target as `query(options)` reads it. -/
structure Target where
  refId : String
  rawSql : String
  format : String
  hide : Bool
deriving DecidableEq, Repr

/-- The options `query(options)` reads: targets, time range, interval,
data-point cap and the scoped variables. -/
structure QueryOptions where
  targets : List Target
  range : TimeRange
  intervalMs : Nat
  maxDataPoints : Nat
  scopedVars : List (String × Value × Variable)

/-- The per-target request payload `query` builds (datasource.ts lines
89-96). -/
structure Payload where
  refId : String
  intervalMs : Nat
  maxDataPoints : Nat
  datasourceId : Nat
  rawSql : String
  format : String
deriving DecidableEq, Repr

/-- The datasource fields `query` and `annotationQuery` read. -/
structure Datasource where
  id : Nat
  projectName : String
deriving DecidableEq, Repr

/-- The `BigQueryQuery` model object `query` builds per target
(`new BigQueryQuery(target, this.templateSrv, options.scopedVars)`). -/
structure BigQueryQuery where
  target : Target
  scopedVars : List (String × Value × Variable)

/-- Modelled from the spec: `BigQueryQuery.render(interpolate?)` is in
`bigquery_query.ts`, not among the staged sources.  `query` passes it no
time range, so of §4.4 it can only perform the Variable Interpolator
walk of §4.2 over the target's raw SQL, with the per-value rule it
receives (`this.interpolateVariable`). -/
def BigQueryQuery.render (q : BigQueryQuery) (interp : Value → Variable → String) : String :=
  interpolate interp q.scopedVars q.target.rawSql

/-- Modelled from the spec: `BigQueryQuery.expend_macros(options)` is in
`bigquery_query.ts`, not among the staged sources.  §4.3: it expands the
macro calls of the model's SQL text (`this.target.rawSql`) against
`options.range`. -/
def BigQueryQuery.expend_macros (q : BigQueryQuery) (o : QueryOptions) : String :=
  expandMacros o.range q.target.rawSql

/-- What `query(options)` does: either the immediate
`this.$q.when(\x7bdata: []\x7d)` success (no request issued), or exactly one
`doQueryRequest(url, q)` carrying the built payload batch and the single
SQL string `q`. -/
inductive QueryOutcome where
  | empty
  | executed (payloads : List Payload) (url : String) (sql : String)
deriving DecidableEq, Repr

/-- The payload `query` builds for one non-hidden target (datasource.ts
lines 86-96). -/
def payloadOf (ds : Datasource) (o : QueryOptions) (t : Target) : Payload :=
  { refId := t.refId
    intervalMs := o.intervalMs
    maxDataPoints := o.maxDataPoints
    datasourceId := ds.id
    rawSql := (BigQueryQuery.mk t o.scopedVars).render interpolateVariable
    format := t.format }

/-- `BigQueryDatasource.query` (datasource.ts lines 83-107).  The filter
keeps targets with `hide !== true`; after the map, `this.queryModel` is
the model of the last non-hidden target, and `queries.length === 0`
exactly when there is no such target, so the two branches are keyed here
on `getLast?` of the filtered list.  The executed SQL is
`this.queryModel.expend_macros(options)`; the built payloads ride along
in the outcome but the code sends none of them. -/
def query (ds : Datasource) (o : QueryOptions) : QueryOutcome :=
  match (o.targets.filter (fun t => !t.hide)).getLast? with
  | none => .empty
  | some t =>
    .executed ((o.targets.filter (fun t => !t.hide)).map (payloadOf ds o))
      ("/bigquery/v2/projects/" ++ ds.projectName ++ "/queries")
      ((BigQueryQuery.mk t o.scopedVars).expend_macros o)

/-- The payload batch an outcome carries. -/
def QueryOutcome.payloads : QueryOutcome → List Payload
  | .empty => []
  | .executed ps _ _ => ps

/-- The SQL strings the executor is asked to run in an outcome. -/
def QueryOutcome.executedSqls : QueryOutcome → List String
  | .empty => []
  | .executed _ _ sql => [sql]

/-! ### `annotationQuery` (datasource.ts lines 109-133) -/

/-- The annotation definition `annotationQuery` reads
(`options.annotation`; the field name `annot` stands for it here). -/
structure AnnotationDef where
  name : String
  rawQuery : Option String
deriving DecidableEq, Repr

/-- The options `annotationQuery(options)` reads. -/
structure AnnotationOptions where
  annot : AnnotationDef
  scopedVars : List (String × Value × Variable)
  rangeFromMs : Nat
  rangeToMs : Nat

/-- What `annotationQuery` does: the immediate `$q.reject` with a
message, or one request to `/api/tsdb/query` carrying the single
interpolated annotation query and the range bounds. -/
inductive AnnotationOutcome where
  | rejected (message : String)
  | requested (refId : String) (datasourceId : Nat) (rawSql : String) (format : String)
      (fromStr : String) (toStr : String)
deriving DecidableEq, Repr

/-- JS falsiness of `options.annotation.rawQuery`: absent
(`undefined`/`null`) or the empty string. -/
def isFalsyStr : Option String → Bool
  | none => true
  | some s => s.isEmpty

/-- `BigQueryDatasource.annotationQuery` (datasource.ts lines 109-133):
reject when the definition has no raw SQL text, otherwise build the one
table-format query with `templateSrv.replace(rawQuery, scopedVars,
this.interpolateVariable)` and send it with the range bounds. -/
def annotationQuery (ds : Datasource) (o : AnnotationOptions) : AnnotationOutcome :=
  if isFalsyStr o.annot.rawQuery then
    .rejected "Query missing in annotation definition"
  else
    .requested o.annot.name ds.id
      (interpolate interpolateVariable o.scopedVars (o.annot.rawQuery.getD ""))
      "table" (natStr o.rangeFromMs) (natStr o.rangeToMs)

/-! ### Transport wrapper (datasource.ts lines 32-63)

`doRequest` and `doQueryRequest` issue `backendSrv.datasourceRequest` and
on failure recurse with `maxRetries - 1` while `maxRetries > 0`, throwing
the error only when the budget is spent.  The executor is embedded as a
function from the attempt index (how many requests were already issued)
to that attempt's result. -/

/-- `doQueryRequest` from a given attempt index with a given remaining
retry budget: issue the request; on success return its value; on failure
re-issue with one retry fewer, or throw the error when no retries
remain. -/
def doQueryRequestGo (exec : Nat → Except String α) : Nat → Nat → Except String α
  | attempt, maxRetries =>
    match exec attempt with
    | .ok a => .ok a
    | .error e =>
      match maxRetries with
      | 0 => .error e
      | m + 1 => doQueryRequestGo exec (attempt + 1) m

/-- `BigQueryDatasource.doQueryRequest` with its default budget
`maxRetries = 1`. -/
def doQueryRequest (exec : Nat → Except String α) : Except String α :=
  doQueryRequestGo exec 0 1

/-- How many requests `doQueryRequestGo` issues. -/
def doQueryRequestCallsGo (exec : Nat → Except String α) : Nat → Nat → Nat
  | attempt, maxRetries =>
    match exec attempt with
    | .ok _ => 1
    | .error _ =>
      match maxRetries with
      | 0 => 1
      | m + 1 => 1 + doQueryRequestCallsGo exec (attempt + 1) m

/-- How many requests the default `doQueryRequest` issues. -/
def doQueryRequestCalls (exec : Nat → Except String α) : Nat :=
  doQueryRequestCallsGo exec 0 1

/-! ### Syntactic helpers for the idempotence proof -/

/-- After an identifier run, the next character closes the call. -/
def tailOk (cs : List Char) : Bool := (cs.dropWhile isIdentChar).head? == some ')'

/-- A nonempty identifier run followed by a closing parenthesis. -/
def runOk (cs : List Char) : Bool := !(cs.takeWhile isIdentChar).isEmpty && tailOk cs

/-- The still-unmatched part `m` of `filterHead` matches at the head of
`cs` and is followed by a well-formed argument: how far one macro-call
match has progressed. -/
def parsePhase (m cs : List Char) : Bool := m.isPrefixOf cs && runOk (cs.drop m.length)

/-! ## Theorems -/

theorem natCharsAux_digits : ∀ fuel n c, c ∈ natCharsAux fuel n → c.isDigit = true := by
  intro fuel
  induction fuel with
  | zero => intro n c h; simp [natCharsAux] at h
  | succ fuel ih =>
    intro n c h
    by_cases hn : n < 10
    · simp [natCharsAux, hn] at h
      subst h
      interval_cases n <;> decide
    · simp [natCharsAux, hn] at h
      rcases h with h | h
      · exact ih _ _ h
      · subst h
        have : n % 10 < 10 := Nat.mod_lt _ (by norm_num)
        interval_cases hm : n % 10 <;> simp_all [digitChar]

theorem natChars_digits (n : Nat) (c : Char) (h : c ∈ natChars n) : c.isDigit = true :=
  natCharsAux_digits _ _ _ h

theorem isDigit_ne_quote {c : Char} (h : c.isDigit = true) : c ≠ '\'' := by
  intro he; subst he; exact absurd h (by decide)

theorem isDigit_ne_dollar {c : Char} (h : c.isDigit = true) : c ≠ '$' := by
  intro he; subst he; exact absurd h (by decide)

theorem noQuoteChars_intStr (n : Int) : noQuoteChars (intStr n) = true := by
  rcases n with m | m
  · simp only [noQuoteChars, intStr, List.all_eq_true]
    intro c hc
    simpa using isDigit_ne_quote (natChars_digits m c hc)
  · simp only [noQuoteChars, intStr, List.all_eq_true]
    intro c hc
    simp only [List.mem_cons] at hc
    rcases hc with h | h
    · subst h; decide
    · simpa using isDigit_ne_quote (natChars_digits _ c h)

theorem ident_not_dollar {c : Char} (h : isIdentChar c = true) : c ≠ '$' := by
  intro he; subst he; exact absurd h (by decide)

theorem length_dropWhile_le (p : Char → Bool) :
    ∀ l : List Char, (l.dropWhile p).length ≤ l.length := by
  intro l
  induction l with
  | nil => simp
  | cons c l ih =>
    by_cases h : p c
    · simpa [List.dropWhile, h] using Nat.le_succ_of_le ih
    · simp [List.dropWhile, h]

theorem isPrefixOf_length : ∀ p l : List Char, p.isPrefixOf l = true → p.length ≤ l.length := by
  intro p
  induction p with
  | nil => simp
  | cons a as ih =>
    intro l h
    cases l with
    | nil => simp [List.isPrefixOf] at h
    | cons b bs =>
      simp only [List.isPrefixOf, Bool.and_eq_true] at h
      simpa using ih bs h.2

theorem tryMacroCall_spec {cs col rem : List Char} (h : tryMacroCall cs = some (col, rem)) :
    (∀ x ∈ col, isIdentChar x = true) ∧ col ≠ [] ∧ rem.length < cs.length := by
  unfold tryMacroCall at h
  by_cases hp : filterHead.isPrefixOf cs
  · simp only [hp, if_true] at h
    rcases hd : (cs.drop filterHead.length).dropWhile isIdentChar with _ | ⟨ch, rest⟩ <;>
      rw [hd] at h
    · simp at h
    · replace h : (if ch = ')' then
          if ((cs.drop filterHead.length).takeWhile isIdentChar).isEmpty then none
          else some ((cs.drop filterHead.length).takeWhile isIdentChar, rest)
        else none) = some (col, rem) := h
      by_cases hch : ch = ')'
      · rw [if_pos hch] at h
        by_cases he : ((cs.drop filterHead.length).takeWhile isIdentChar).isEmpty
        · simp [he] at h
        · simp only [he, Bool.false_eq_true, if_false, Option.some.injEq, Prod.mk.injEq] at h
          obtain ⟨hcol, hrem⟩ := h
          subst hcol; subst hrem
          refine ⟨fun x hx => List.mem_takeWhile_imp hx, ?_, ?_⟩
          · intro hnil
            rw [hnil] at he
            exact he rfl
          · have h13 : filterHead.length ≤ cs.length := isPrefixOf_length _ _ hp
            have h1 : ((cs.drop filterHead.length).dropWhile isIdentChar).length
                ≤ (cs.drop filterHead.length).length := length_dropWhile_le _ _
            rw [hd] at h1
            simp only [List.length_cons, List.length_drop] at h1
            have : filterHead.length = 13 := by decide
            omega
      · rw [if_neg hch] at h
        exact absurd h (by simp)
  · simp [hp] at h

theorem expandAux_fuel (r : TimeRange) :
    ∀ n cs f₁ f₂, cs.length ≤ n → cs.length ≤ f₁ → cs.length ≤ f₂ →
      expandAux r f₁ cs = expandAux r f₂ cs := by
  intro n
  induction n with
  | zero =>
    intro cs f₁ f₂ hn _ _
    have : cs = [] := by
      cases cs
      · rfl
      · simp at hn
    subst this
    cases f₁ <;> cases f₂ <;> rfl
  | succ n ih =>
    intro cs f₁ f₂ hn h₁ h₂
    cases cs with
    | nil => cases f₁ <;> cases f₂ <;> rfl
    | cons c rest =>
      simp only [List.length_cons] at hn h₁ h₂
      obtain ⟨g₁, rfl⟩ : ∃ g, f₁ = g + 1 := ⟨f₁ - 1, by omega⟩
      obtain ⟨g₂, rfl⟩ : ∃ g, f₂ = g + 1 := ⟨f₂ - 1, by omega⟩
      simp only [expandAux]
      by_cases hc : c = '$'
      · rcases hm : tryMacroCall rest with _ | ⟨col, rem⟩
        · simp only [hc, if_true, hm]
          rw [ih rest g₁ g₂ (by omega) (by omega) (by omega)]
        · have hrem := (tryMacroCall_spec hm).2.2
          simp only [hc, if_true, hm]
          rw [ih rem g₁ g₂ (by omega) (by omega) (by omega)]
      · simp only [hc, if_false]
        rw [ih rest g₁ g₂ (by omega) (by omega) (by omega)]

theorem expandL_nil (r : TimeRange) : expandL r [] = [] := rfl

theorem expandL_cons_other {c : Char} (r : TimeRange) (rest : List Char) (h : c ≠ '$') :
    expandL r (c :: rest) = c :: expandL r rest := by
  simp only [expandL, List.length_cons, expandAux, h, if_false]

theorem expandL_dollar_none (r : TimeRange) (rest : List Char) (h : tryMacroCall rest = none) :
    expandL r ('$' :: rest) = '$' :: expandL r rest := by
  simp only [expandL, List.length_cons, expandAux, if_true, h]

theorem expandL_dollar_some (r : TimeRange) {rest col rem : List Char}
    (h : tryMacroCall rest = some (col, rem)) :
    expandL r ('$' :: rest) = repl r col ++ expandL r rem := by
  have hrem := (tryMacroCall_spec h).2.2
  simp only [expandL, List.length_cons, expandAux, if_true, h]
  rw [expandAux_fuel r rest.length rem rest.length rem.length (by omega) (by omega) (by omega)]

theorem filterTail_noDollar (r : TimeRange) : ∀ c ∈ filterTail r, c ≠ '$' := by
  intro c hc
  simp only [filterTail, List.mem_append] at hc
  rcases hc with ((((h | h) | h) | h) | h)
  · revert h; revert c; decide
  · exact isDigit_ne_dollar (natChars_digits _ _ h)
  · revert h; revert c; decide
  · exact isDigit_ne_dollar (natChars_digits _ _ h)
  · revert h; revert c; decide

theorem repl_noDollar (r : TimeRange) {col : List Char}
    (hcol : ∀ x ∈ col, isIdentChar x = true) : ∀ c ∈ repl r col, c ≠ '$' := by
  intro c hc
  simp only [repl, List.mem_append, List.mem_cons] at hc
  rcases hc with h | h | h
  · exact ident_not_dollar (hcol c h)
  · subst h; decide
  · exact filterTail_noDollar r c h

theorem expandL_append_noDollar (r : TimeRange) :
    ∀ s t : List Char, (∀ c ∈ s, c ≠ '$') → expandL r (s ++ t) = s ++ expandL r t := by
  intro s
  induction s with
  | nil => intro t _; rfl
  | cons c s ih =>
    intro t hs
    have hc : c ≠ '$' := hs c (by simp)
    rw [List.cons_append, expandL_cons_other r _ hc, ih t (fun x hx => hs x (by simp [hx]))]
    rfl

theorem tailOk_cons_ident {c : Char} (l : List Char) (h : isIdentChar c = true) :
    tailOk (c :: l) = tailOk l := by
  simp [tailOk, List.dropWhile, h]

theorem tailOk_cons_not {c : Char} (l : List Char) (h : isIdentChar c = false) :
    tailOk (c :: l) = (c == ')') := by
  simp [tailOk, List.dropWhile, h]

theorem tailOk_ident_append_space {col : List Char} (t : List Char)
    (hcol : ∀ x ∈ col, isIdentChar x = true) : tailOk (col ++ ' ' :: t) = false := by
  have hsp : isIdentChar ' ' = false := by decide
  simp only [tailOk, List.dropWhile_append_of_pos hcol, List.dropWhile_cons, hsp,
    Bool.false_eq_true, if_false, List.head?_cons]
  decide

theorem repl_shape (r : TimeRange) (col X : List Char) :
    repl r col ++ X = col ++ ' ' :: (filterTail r ++ X) := by
  simp [repl]

theorem tailOk_expandL (r : TimeRange) :
    ∀ cs, tailOk cs = false → tailOk (expandL r cs) = false := by
  intro cs
  induction cs with
  | nil =>
    intro _
    rw [expandL_nil]
    decide
  | cons c rest ih =>
    intro h
    by_cases hI : isIdentChar c
    · rw [tailOk_cons_ident rest hI] at h
      rw [expandL_cons_other r rest (ident_not_dollar hI), tailOk_cons_ident _ hI]
      exact ih h
    · rw [tailOk_cons_not rest (by simpa using hI)] at h
      by_cases hc : c = '$'
      · subst hc
        rcases hm : tryMacroCall rest with _ | ⟨col, rem⟩
        · rw [expandL_dollar_none r rest hm, tailOk_cons_not _ (by decide)]
          exact h
        · rw [expandL_dollar_some r hm, repl_shape]
          exact tailOk_ident_append_space _ (tryMacroCall_spec hm).1
      · rw [expandL_cons_other r rest hc, tailOk_cons_not _ (by simpa using hI)]
        exact h

theorem runOk_cons_ident {c : Char} (l : List Char) (h : isIdentChar c = true) :
    runOk (c :: l) = tailOk l := by
  simp [runOk, List.takeWhile_cons, h, tailOk_cons_ident _ h]

theorem runOk_cons_not {c : Char} (l : List Char) (h : isIdentChar c = false) :
    runOk (c :: l) = false := by
  simp [runOk, List.takeWhile_cons, h]

theorem runOk_ident_append_space {col : List Char} (t : List Char)
    (hcol : ∀ x ∈ col, isIdentChar x = true) : runOk (col ++ ' ' :: t) = false := by
  cases col with
  | nil => simpa using runOk_cons_not t (by decide)
  | cons c col' =>
    rw [List.cons_append, runOk_cons_ident _ (hcol c (by simp))]
    exact tailOk_ident_append_space _ (fun x hx => hcol x (by simp [hx]))

theorem runOk_expandL (r : TimeRange) (cs : List Char) (h : runOk cs = false) :
    runOk (expandL r cs) = false := by
  cases cs with
  | nil =>
    rw [expandL_nil]
    decide
  | cons c rest =>
    by_cases hI : isIdentChar c
    · rw [runOk_cons_ident rest hI] at h
      rw [expandL_cons_other r rest (ident_not_dollar hI), runOk_cons_ident _ hI]
      exact tailOk_expandL r rest h
    · by_cases hc : c = '$'
      · subst hc
        rcases hm : tryMacroCall rest with _ | ⟨col, rem⟩
        · rw [expandL_dollar_none r rest hm]
          exact runOk_cons_not _ (by decide)
        · rw [expandL_dollar_some r hm, repl_shape]
          exact runOk_ident_append_space _ (tryMacroCall_spec hm).1
      · rw [expandL_cons_other r rest hc]
        exact runOk_cons_not _ (by simpa using hI)

theorem isPrefixOf_ident_space_false :
    ∀ (col m t : List Char), (∀ x ∈ m, isIdentChar x = true ∨ x = '(') →
      m.getLast? = some '(' → (∀ x ∈ col, isIdentChar x = true) →
      m.isPrefixOf (col ++ ' ' :: t) = false := by
  intro col
  induction col with
  | nil =>
    intro m t hm hlast hcol
    cases m with
    | nil => simp at hlast
    | cons a m' =>
      simp only [List.nil_append, List.isPrefixOf, Bool.and_eq_false_iff]
      left
      rw [beq_eq_false_iff_ne]
      rcases hm a (by simp) with h | h
      · intro he
        subst he
        exact absurd h (by decide)
      · subst h
        decide
  | cons x col' ih =>
    intro m t hm hlast hcol
    cases m with
    | nil => simp at hlast
    | cons a m' =>
      simp only [List.cons_append, List.isPrefixOf, Bool.and_eq_false_iff]
      by_cases hax : a = x
      · right
        subst hax
        have haI : isIdentChar a = true := hcol a (by simp)
        cases m' with
        | nil =>
          simp only [List.getLast?_singleton, Option.some.injEq] at hlast
          subst hlast
          exact absurd haI (by decide)
        | cons b m'' =>
          rw [List.getLast?_cons_cons] at hlast
          exact ih (b :: m'') t (fun y hy => hm y (by simp [hy])) hlast
            (fun y hy => hcol y (by simp [hy]))
      · left
        rw [beq_eq_false_iff_ne]
        exact hax

theorem parsePhase_nil_m (cs : List Char) : parsePhase [] cs = runOk cs := by
  simp [parsePhase, List.isPrefixOf]

theorem parsePhase_cons_nil (a : Char) (m : List Char) : parsePhase (a :: m) [] = false := by
  simp [parsePhase, List.isPrefixOf]

theorem parsePhase_cons_cons (a : Char) (m : List Char) (c : Char) (cs : List Char) :
    parsePhase (a :: m) (c :: cs) = ((a == c) && parsePhase m cs) := by
  simp [parsePhase, List.isPrefixOf, Bool.and_assoc]

theorem parsePhase_expandL (r : TimeRange) :
    ∀ m, (∀ x ∈ m, isIdentChar x = true ∨ x = '(') → (m = [] ∨ m.getLast? = some '(') →
      ∀ cs, parsePhase m cs = false → parsePhase m (expandL r cs) = false := by
  intro m
  induction m with
  | nil =>
    intro _ _ cs h
    rw [parsePhase_nil_m] at h ⊢
    exact runOk_expandL r cs h
  | cons a m' ih =>
    intro hm hlast cs h
    have hlast' : (a :: m').getLast? = some '(' := hlast.resolve_left (by simp)
    have ha : a ≠ '$' := by
      rcases hm a (by simp) with h' | h'
      · exact ident_not_dollar h'
      · subst h'
        decide
    cases cs with
    | nil =>
      rw [expandL_nil]
      exact h
    | cons c rest =>
      by_cases hc : c = '$'
      · subst hc
        rcases hmac : tryMacroCall rest with _ | ⟨col, rem⟩
        · rw [expandL_dollar_none r rest hmac, parsePhase_cons_cons]
          rw [beq_eq_false_iff_ne.mpr ha]
          rfl
        · rw [expandL_dollar_some r hmac, repl_shape]
          have hpre := isPrefixOf_ident_space_false col (a :: m') (filterTail r ++ expandL r rem)
            hm hlast' (tryMacroCall_spec hmac).1
          simp [parsePhase, hpre]
      · by_cases hac : a = c
        · subst hac
          rw [parsePhase_cons_cons] at h
          rw [expandL_cons_other r rest hc, parsePhase_cons_cons]
          have h' : parsePhase m' rest = false := by
            rcases Bool.and_eq_false_iff.mp h with h'' | h''
            · rw [beq_self_eq_true a] at h''
              exact absurd h'' (by simp)
            · exact h''
          have hlast'' : m' = [] ∨ m'.getLast? = some '(' := by
            cases m' with
            | nil => exact Or.inl rfl
            | cons b m'' =>
              right
              rw [List.getLast?_cons_cons] at hlast'
              exact hlast'
          rw [ih (fun y hy => hm y (by simp [hy])) hlast'' rest h']
          exact Bool.and_false _
        · rw [expandL_cons_other r rest hc, parsePhase_cons_cons]
          rw [beq_eq_false_iff_ne.mpr hac]
          rfl

theorem beq_some_some (a b : Char) : ((some a == some b) : Bool) = (a == b) := rfl

theorem beq_none_some (b : Char) : ((none == some b) : Bool) = false := rfl

theorem tryMacroCall_none_iff (cs : List Char) :
    (tryMacroCall cs = none) ↔ (parsePhase filterHead cs = false) := by
  by_cases hp : filterHead.isPrefixOf cs
  · simp only [tryMacroCall, parsePhase, hp, if_true, Bool.true_and]
    rcases hd : (cs.drop filterHead.length).dropWhile isIdentChar with _ | ⟨ch, rest⟩
    · simp [runOk, tailOk, hd, beq_none_some]
    · by_cases hch : ch = ')'
      · subst hch
        by_cases he : ((cs.drop filterHead.length).takeWhile isIdentChar).isEmpty
        · simp [runOk, tailOk, hd, he]
        · simp [runOk, tailOk, hd, he, beq_some_some]
      · have hb : (ch == ')') = false := beq_eq_false_iff_ne.mpr hch
        simp [runOk, tailOk, hd, hch, beq_some_some, hb]
  · simp [tryMacroCall, parsePhase, hp]

theorem tryMacroCall_expandL_none (r : TimeRange) (cs : List Char)
    (h : tryMacroCall cs = none) : tryMacroCall (expandL r cs) = none := by
  rw [tryMacroCall_none_iff] at h ⊢
  exact parsePhase_expandL r filterHead (by decide) (Or.inr (by decide)) cs h

theorem expandL_idem (r : TimeRange) :
    ∀ n cs, cs.length ≤ n → expandL r (expandL r cs) = expandL r cs := by
  intro n
  induction n with
  | zero =>
    intro cs h
    have hnil : cs = [] := by
      cases cs
      · rfl
      · simp at h
    subst hnil
    rw [expandL_nil, expandL_nil]
  | succ n ih =>
    intro cs h
    cases cs with
    | nil => rw [expandL_nil, expandL_nil]
    | cons c rest =>
      simp only [List.length_cons] at h
      by_cases hc : c = '$'
      · subst hc
        rcases hm : tryMacroCall rest with _ | ⟨col, rem⟩
        · rw [expandL_dollar_none r rest hm,
            expandL_dollar_none r _ (tryMacroCall_expandL_none r rest hm),
            ih rest (by omega)]
        · have hspec := tryMacroCall_spec hm
          rw [expandL_dollar_some r hm,
            expandL_append_noDollar r _ _ (repl_noDollar r hspec.1),
            ih rem (by omega)]
      · rw [expandL_cons_other r rest hc, expandL_cons_other r _ hc, ih rest (by omega)]

/-- C7: macro expansion is idempotent: for every SQL string and options,
expanding the already-expanded text is a no-op, because a successful
expansion leaves no macro-call syntax for a second pass to match. -/
theorem expandMacros_idem (r : TimeRange) (sql : String) :
    expandMacros r (expandMacros r sql) = expandMacros r sql := by
  simp only [expandMacros]
  exact congrArg String.mk (expandL_idem r sql.data.length sql.data (le_refl _))


/-- C3: for every variable whose `multi` or `includeAll` flag is set, or
whose value is a list, interpolation replaces the token with the
elements each quoted via `quoteLiteral` and joined with `,` and no
brackets (a scalar value contributing itself as the only element, a
null value contributing none). -/
theorem interpolateVariable_multi_or_list_joins_quoted (value : Value) (v : Variable)
    (h : v.multi = true ∨ v.includeAll = true ∨ ∃ vs, value = Value.list vs) :
    interpolateVariable value v = joinComma (value.elems.map quoteLiteral) := by
  rcases value with s | n | vs | _
  · rcases h with h | h | ⟨vs, hv⟩
    · simp [interpolateVariable, Value.elems, joinComma, h]
    · simp [interpolateVariable, Value.elems, joinComma, h]
    · exact absurd hv (by simp)
  · rfl
  · rfl
  · rfl

theorem interpolateVariable_multi_or_list_joins_quoted_witness :
    ((⟨true, false⟩ : Variable).multi = true ∨ (⟨true, false⟩ : Variable).includeAll = true ∨
      ∃ vs, Value.list [.num 1, .num 2, .num 3] = Value.list vs)
    ∧ interpolateVariable (Value.list [.num 1, .num 2, .num 3]) ⟨true, false⟩
        = joinComma ((Value.list [.num 1, .num 2, .num 3]).elems.map quoteLiteral)
    ∧ joinComma ((Value.list [.num 1, .num 2, .num 3]).elems.map quoteLiteral) = "1,2,3" :=
  ⟨Or.inl rfl,
    interpolateVariable_multi_or_list_joins_quoted _ _ (Or.inl rfl),
    by decide⟩

/-- C4: for every plain scalar string value whose variable has both
`multi` and `includeAll` unset, interpolation substitutes the raw value
unchanged and unquoted. -/
theorem interpolateVariable_scalar_string_raw (s : String) (v : Variable)
    (h1 : v.multi = false) (h2 : v.includeAll = false) :
    interpolateVariable (Value.str s) v = s := by
  simp [interpolateVariable, h1, h2]

theorem interpolateVariable_scalar_string_raw_witness :
    (⟨false, false⟩ : Variable).multi = false
    ∧ (⟨false, false⟩ : Variable).includeAll = false
    ∧ interpolateVariable (Value.str "abc") ⟨false, false⟩ = "abc" :=
  ⟨rfl, rfl, interpolateVariable_scalar_string_raw "abc" ⟨false, false⟩ rfl rfl⟩

/-- C8: every numeric scalar value is substituted as its decimal text,
unquoted, whatever the variable's `multi` and `includeAll` flags are. -/
theorem interpolateVariable_num_unquoted (n : Int) (v : Variable) :
    interpolateVariable (Value.num n) v = intStr n ∧ noQuoteChars (intStr n) = true :=
  ⟨rfl, noQuoteChars_intStr n⟩

/-- C9: a `null`/`undefined` value interpolates to the empty string (the
code falls through to the list branch, lodash maps it to the empty list
and the join of nothing is `""`), not to a SQL `NULL` literal and not to
an error. -/
theorem interpolateVariable_null_empty (v : Variable) :
    interpolateVariable Value.null v = "" := rfl

/-- C6: the payload batch of `query` is built from exactly the targets
with `hide` unset (hidden targets are excluded entirely), and the
outcome is the immediate empty-result success, with no executor request,
exactly when the filtered batch is empty. -/
theorem query_skips_hidden_and_short_circuits (ds : Datasource) (o : QueryOptions) :
    (query ds o).payloads = (o.targets.filter (fun t => !t.hide)).map (payloadOf ds o)
    ∧ (query ds o = .empty ↔ o.targets.filter (fun t => !t.hide) = []) := by
  cases h : (o.targets.filter (fun t => !t.hide)).getLast? with
  | none =>
    rw [List.getLast?_eq_none_iff] at h
    simp [query, h, QueryOutcome.payloads]
  | some t =>
    constructor
    · simp [query, h, QueryOutcome.payloads]
    · constructor
      · intro he
        simp [query, h] at he
      · intro he
        rw [he] at h
        simp at h

/-- C10: an annotation request whose definition carries no raw SQL text
(absent or empty, the two falsy string shapes) is rejected immediately
with the message `Query missing in annotation definition` and no request
is issued (the outcome is the rejection, not a `requested`). -/
theorem annotationQuery_missing_rejects (ds : Datasource) (o : AnnotationOptions)
    (h : o.annot.rawQuery = none ∨ o.annot.rawQuery = some "") :
    annotationQuery ds o = .rejected "Query missing in annotation definition" := by
  rcases h with h | h <;> simp [annotationQuery, isFalsyStr, h, String.isEmpty]

theorem annotationQuery_missing_rejects_witness :
    ((⟨⟨"events", none⟩, [], 0, 0⟩ : AnnotationOptions).annot.rawQuery = none
      ∨ (⟨⟨"events", none⟩, [], 0, 0⟩ : AnnotationOptions).annot.rawQuery = some "")
    ∧ annotationQuery ⟨7, "proj"⟩ ⟨⟨"events", none⟩, [], 0, 0⟩
        = .rejected "Query missing in annotation definition" :=
  ⟨Or.inl rfl, annotationQuery_missing_rejects ⟨7, "proj"⟩ _ (Or.inl rfl)⟩

/-- C5 counterexample: the transport wrapper does retry.  With its
default budget `maxRetries = 1`, an executor that fails on the first
attempt and succeeds on the second makes `doQueryRequest` succeed — the
failed call's `TransportError` is not passed through and the request is
re-issued — and an always-failing executor is invoked twice. -/
theorem doQueryRequest_retries_counterexample :
    doQueryRequest (fun i => if i = 0 then (Except.error "TransportError" : Except String Nat)
      else .ok 7) = .ok 7
    ∧ doQueryRequestCalls (fun _ => (Except.error "TransportError" : Except String Nat)) = 2 := by
  constructor <;> rfl

/-- C5 as the code has it: a failed executor call is re-issued while
`maxRetries > 0`; when every attempt fails, the wrapper issues exactly
`maxRetries + 1` requests and passes the error of the final attempt
through unmodified. -/
theorem doQueryRequest_bounded_retry {α : Type} (exec : Nat → Except String α)
    (err : Nat → String) (a r : Nat) (h : ∀ i, exec i = .error (err i)) :
    doQueryRequestGo exec a r = .error (err (a + r))
    ∧ doQueryRequestCallsGo exec a r = r + 1 := by
  induction r generalizing a with
  | zero =>
    rw [doQueryRequestGo, doQueryRequestCallsGo, h a]
    exact ⟨rfl, rfl⟩
  | succ r ih =>
    refine ⟨?_, ?_⟩
    · rw [doQueryRequestGo, h a]
      show doQueryRequestGo exec (a + 1) r = Except.error (err (a + (r + 1)))
      have heq : a + (r + 1) = a + 1 + r := by omega
      rw [heq, (ih (a + 1)).1]
    · rw [doQueryRequestCallsGo, h a]
      show 1 + doQueryRequestCallsGo exec (a + 1) r = r + 1 + 1
      rw [(ih (a + 1)).2]
      omega

theorem doQueryRequest_bounded_retry_witness :
    doQueryRequestGo (fun _ => (Except.error "boom" : Except String Nat)) 0 1 = .error "boom"
    ∧ doQueryRequestCallsGo (fun _ => (Except.error "boom" : Except String Nat)) 0 1 = 2 :=
  doQueryRequest_bounded_retry (fun _ => (Except.error "boom" : Except String Nat))
    (fun _ => "boom") 0 1 (fun _ => rfl)

/-- C2 at a failing input: a batch of two non-hidden targets produces
two payloads, but the executor is asked to run exactly one query — the
macro-expanded raw SQL of the last target — and none of the built
payloads is sent. -/
theorem query_two_targets_one_request :
    (query ⟨7, "proj"⟩
        ⟨[⟨"A", "SELECT a", "time_series", false⟩, ⟨"B", "SELECT b", "table", false⟩],
          ⟨1000, 2000⟩, 60000, 100, []⟩).payloads.length = 2
    ∧ (query ⟨7, "proj"⟩
        ⟨[⟨"A", "SELECT a", "time_series", false⟩, ⟨"B", "SELECT b", "table", false⟩],
          ⟨1000, 2000⟩, 60000, 100, []⟩).executedSqls = ["SELECT b"] := by
  constructor <;> rfl

/-- C1 at a failing input: the SQL handed to variable interpolation
still carries its macro call (the payload's interpolated SQL keeps
`$__timeFilter(ts)` verbatim), and the executor-bound SQL is the macro
expansion of the raw target SQL with the variable token `${v}` left in
place — interpolation runs first and is never applied to the expanded
text. -/
theorem query_interpolates_before_expanding :
    (query ⟨7, "proj"⟩
        ⟨[⟨"A", "SELECT 1 WHERE $__timeFilter(ts) AND name = ${v}", "table", false⟩],
          ⟨1000, 2000⟩, 60000, 100, [("v", Value.str "abc", ⟨false, false⟩)]⟩).payloads
      = [⟨"A", 60000, 100, 7, "SELECT 1 WHERE $__timeFilter(ts) AND name = abc", "table"⟩]
    ∧ (query ⟨7, "proj"⟩
        ⟨[⟨"A", "SELECT 1 WHERE $__timeFilter(ts) AND name = ${v}", "table", false⟩],
          ⟨1000, 2000⟩, 60000, 100, [("v", Value.str "abc", ⟨false, false⟩)]⟩).executedSqls
      = ["SELECT 1 WHERE ts BETWEEN TIMESTAMP_MILLIS (1000) AND TIMESTAMP_MILLIS (2000) AND name = ${v}"] := by
  constructor <;> rfl

end BigQueryDS
